import Mathlib

/-!
Verification development for the fastq2fasta converter
(`src/fastq2fasta.py`).

File contents are modelled byte-for-byte as lists of characters; a
"line" is a maximal chunk as Python's `readline` / file iteration
returns it, newline terminator included (the final chunk of a file may
lack the terminator).  Paths are `String`s and the file system is a
partial map from paths to file data.  The interactive answer stream of
`input()` is a function from the number of prompts already issued to
the answer entered, and directory writability (`os.access(dir, W_OK)`)
is an oracle on directory names.  Regular-expression operations of the
source are translated to the equivalent suffix tests they perform
(`$` is modelled as end of string).
-/

/-- The chunks Python's `readline` produces from a character stream:
each chunk ends with `'\n'` except possibly the last; `acc` holds the
reversed characters of the chunk currently being scanned. -/
def readLinesAux (acc : List Char) : List Char → List (List Char)
  | [] => if acc.isEmpty then [] else [acc.reverse]
  | c :: rest =>
    if c = '\n' then (acc.reverse ++ ['\n']) :: readLinesAux [] rest
    else readLinesAux (c :: acc) rest

/-- All lines of a file's contents, in order, as Python `readline`
and file iteration would yield them (terminators kept). -/
def readLines (cs : List Char) : List (List Char) :=
  readLinesAux [] cs

/-- `l` is a newline-terminated line with no interior newline. -/
def isLine : List Char → Bool
  | [] => false
  | [c] => c == '\n'
  | c :: rest => (c != '\n') && isLine rest

/-- Python's `line.startswith(c)` for a one-character pattern. -/
def startsWithChar (c : Char) (l : List Char) : Bool :=
  match l with
  | [] => false
  | x :: _ => x == c

/-- The body of the conversion loop of `fastq_to_fasta`
(`src/fastq2fasta.py` lines 219-235), one step per input line; `n` is
the Python counter `line_num`.  A line at position `0 mod 4` is written
as `>` followed by the line minus its first character
(`fa.write(f">{line[1:]}")`); a line at position `1 mod 4` is written
verbatim (`fa.write(line)`); positions `2` and `3 mod 4` write
nothing. -/
def convertFrom (n : Nat) : List (List Char) → List (List Char)
  | [] => []
  | l :: ls =>
    if n % 4 = 0 then ('>' :: l.drop 1) :: convertFrom (n + 1) ls
    else if n % 4 = 1 then l :: convertFrom (n + 1) ls
    else convertFrom (n + 1) ls

/-- The chunks `fastq_to_fasta` writes to the output file for the given
input lines (counter starting at `line_num = 0`). -/
def convertLines (ls : List (List Char)) : List (List Char) :=
  convertFrom 0 ls

/-- The elements of a list sitting at odd (0-based) positions.  For a
converter output this selects the sequence lines: the output alternates
header, sequence, header, sequence, … . -/
def oddElems : List (List Char) → List (List Char)
  | [] => []
  | [_] => []
  | _ :: b :: t => b :: oddElems t

/-- The elements of a list sitting at even (0-based) positions. -/
def evenElems : List (List Char) → List (List Char)
  | [] => []
  | a :: t => a :: oddElems t

/-- Modelled from the spec's words for claim C2: the input lines whose
0-based position is congruent to 1 modulo 4, in order; `n` is the
position of the first element of the remaining list. -/
def pos1Mod4From (n : Nat) : List (List Char) → List (List Char)
  | [] => []
  | l :: ls =>
    if n % 4 = 1 then l :: pos1Mod4From (n + 1) ls
    else pos1Mod4From (n + 1) ls

/-- The input lines at position ≡ 1 (mod 4), counting from 0. -/
def linesAtPos1Mod4 (ls : List (List Char)) : List (List Char) :=
  pos1Mod4From 0 ls

/-- `endsWithL sfx s`: `s` ends with the suffix `sfx` (both as
character lists).  Used to translate the anchored regex tests of the
source. -/
def endsWithL (sfx s : List Char) : Bool :=
  s.drop (s.length - sfx.length) == sfx

/-- Python's `str.lower()` on a character list. -/
def lowerL (s : List Char) : List Char :=
  s.map Char.toLower

/-- The extension test `re.search(r'\.(fastq|fq)$', file, re.I)` of
`argument_check` (`src/fastq2fasta.py` line 97): the file name ends,
case-insensitively, in `.fastq` or `.fq`. -/
def validExt (f : String) : Bool :=
  endsWithL ".fastq".toList (lowerL f.toList) ||
    endsWithL ".fq".toList (lowerL f.toList)

/-- The output-name computation
`out_file = re.sub(r'\.fastq$', '.fasta', file)`
(`src/fastq2fasta.py` line 193): a case-sensitive substitution of a
trailing `.fastq` by `.fasta`; any other name is left unchanged. -/
def out_name (f : String) : String :=
  if endsWithL ".fastq".toList f.toList then
    String.mk (f.toList.take (f.toList.length - 6) ++ ".fasta".toList)
  else f

/-- `os.path.dirname` on a character list (POSIX semantics): the part
before the last `/`, with trailing slashes stripped unless the head is
all slashes. -/
def dirnameL (cs : List Char) : List Char :=
  let headRev := cs.reverse.dropWhile (fun c => c != '/')
  if headRev.all (fun c => c == '/') then headRev.reverse
  else (headRev.dropWhile (fun c => c == '/')).reverse

/-- `os.path.dirname(out_file) or '.'` (`src/fastq2fasta.py` line
207). -/
def out_dir_of (out : String) : String :=
  let d := dirnameL out.toList
  if d.isEmpty then "." else String.mk d

/-- A regular file on disk: its read permission for the current user
and its contents. -/
structure FileData where
  readable : Bool
  content : List Char
deriving DecidableEq

/-- The file system: a partial map from paths to regular files
(`none` = `os.path.isfile` is false). -/
abbrev FS := String → Option FileData

/-- Writing a file: `open(path, 'w')` followed by the given writes
replaces (or creates) the file at `path` with the given contents. -/
def writeFS (fs : FS) (path : String) (content : List Char) : FS :=
  fun q => if q = path then some ⟨true, content⟩ else fs q

/-- `validate_fastq_format` (`src/fastq2fasta.py` lines 115-164) on the
contents of a readable file: read four lines (`readline` yields `""` at
end of file, modelled by the default `[]`), reject if any of the four
is missing, if line 1 does not start with `@`, or if line 3 does not
start with `+`; accept otherwise. -/
def validate_fastq_format (content : List Char) : Bool :=
  let ls := readLines content
  let l0 := ls.getD 0 []
  let l1 := ls.getD 1 []
  let l2 := ls.getD 2 []
  let l3 := ls.getD 3 []
  if l0.isEmpty || l1.isEmpty || l2.isEmpty || l3.isEmpty then false
  else if !(startsWithChar '@' l0) then false
  else if !(startsWithChar '+' l2) then false
  else true

/-- The validation failures of `argument_check`, each carrying the
offending file name printed in its diagnostic. -/
inductive CheckErr where
  | notFound (f : String)
  | notReadable (f : String)
  | badExt (f : String)
  | emptyFile (f : String)
  | badFormat (f : String)
deriving DecidableEq

/-- The file named by a validation failure's diagnostic. -/
def errFile : CheckErr → String
  | .notFound f => f
  | .notReadable f => f
  | .badExt f => f
  | .emptyFile f => f
  | .badFormat f => f

/-- The per-file checks of `argument_check` (`src/fastq2fasta.py`
lines 84-109), in source order: existence as a regular file, read
permission, accepted extension, non-zero size, FASTQ sniff.  Returns
the first failure, or `none` if the file passes them all. -/
def checkFile (fs : FS) (f : String) : Option CheckErr :=
  match fs f with
  | none => some (.notFound f)
  | some info =>
    if !info.readable then some (.notReadable f)
    else if !(validExt f) then some (.badExt f)
    else if info.content.length = 0 then some (.emptyFile f)
    else if !(validate_fastq_format info.content) then some (.badFormat f)
    else none

/-- Result of `argument_check`: success, the usage error for an empty
argument list, or the first per-file validation failure (each failure
makes the program `sys.exit(1)`). -/
inductive ArgResult where
  | ok
  | usageError
  | failed (e : CheckErr)
deriving DecidableEq

/-- The per-file loop of `argument_check`: files are validated in
order; the first failure terminates the whole run. -/
def argCheckGo (fs : FS) : List String → ArgResult
  | [] => .ok
  | f :: rest =>
    match checkFile fs f with
    | some e => .failed e
    | none => argCheckGo fs rest

/-- `argument_check` (`src/fastq2fasta.py` lines 56-112). -/
def argument_check (fs : FS) (files : List String) : ArgResult :=
  if files.isEmpty then .usageError else argCheckGo fs files

/-- The process exit status produced by an `argument_check` outcome
(`sys.exit(1)` on any failure; success continues with status 0 so
far). -/
def argExitCode : ArgResult → Nat
  | .ok => 0
  | .usageError => 1
  | .failed _ => 1

/-- The observable console events of `fastq_to_fasta`, in order. -/
inductive Ev where
  | prompt (out : String)
  | cancelMsg
  | permErr (dir : String)
  | warnIncomplete (file : String) (n : Nat)
  | okMsg (file out : String)
  | ioErr (file : String)
deriving DecidableEq

/-- The running state of `fastq_to_fasta`: the file system, the events
printed so far, and the number of interactive prompts already
answered. -/
structure St where
  fs : FS
  events : List Ev
  prompts : Nat

/-- `answer.lower() in ['y', 'yes']` (`src/fastq2fasta.py` line
201). -/
def affirmative (a : String) : Bool :=
  lowerL a.toList == "y".toList || lowerL a.toList == "yes".toList

/-- The conversion step for one file after the overwrite guard
(`src/fastq2fasta.py` lines 205-253): check the destination directory
is writable, open the input and the output, stream the lines, warn on a
trailing partial record.  `inl` carries the new file system and the
events printed; `inr` carries the events printed and the exit code of
an aborting failure.

When `out = f` the output truncation of `open(out_file, 'w')` empties
the file before the read loop consumes any line, so the loop reads
nothing: the input lines are `[]` in that case. -/
def convertStep (wOK : String → Bool) (f out : String) (fs : FS) :
    (FS × List Ev) ⊕ (List Ev × Nat) :=
  if wOK (out_dir_of out) then
    match fs f with
    | none => .inr ([Ev.ioErr f], 1)
    | some info =>
      if info.readable then
        let inLines := if out = f then [] else readLines info.content
        let warn :=
          if inLines.length % 4 = 0 then ([] : List Ev)
          else [Ev.warnIncomplete f inLines.length]
        .inl (writeFS fs out (convertLines inLines).flatten,
          warn ++ [Ev.okMsg f out])
      else .inr ([Ev.ioErr f], 1)
  else .inr ([Ev.permErr (out_dir_of out)], 1)

/-- `fastq_to_fasta` (`src/fastq2fasta.py` lines 171-253) over its list
of validated files: per file, compute the output name, run the
overwrite guard (prompting when the destination exists; a non-`y`/`yes`
answer exits with status 0), then the conversion step; `some c` is an
early `sys.exit(c)`, `none` means all files were processed. -/
def runFiles (wOK : String → Bool) (ans : Nat → String) :
    List String → St → St × Option Nat
  | [], st => (st, none)
  | f :: rest, st =>
    match st.fs (out_name f) with
    | some _ =>
      if affirmative (ans st.prompts) then
        match convertStep wOK f (out_name f) st.fs with
        | .inl (fs', evs) =>
          runFiles wOK ans rest
            ⟨fs', (st.events ++ [Ev.prompt (out_name f)]) ++ evs,
              st.prompts + 1⟩
        | .inr (evs, c) =>
          (⟨st.fs, (st.events ++ [Ev.prompt (out_name f)]) ++ evs,
            st.prompts + 1⟩, some c)
      else
        (⟨st.fs, (st.events ++ [Ev.prompt (out_name f)]) ++ [Ev.cancelMsg],
          st.prompts + 1⟩, some 0)
    | none =>
      match convertStep wOK f (out_name f) st.fs with
      | .inl (fs', evs) => runFiles wOK ans rest ⟨fs', st.events ++ evs, st.prompts⟩
      | .inr (evs, c) => (⟨st.fs, st.events ++ evs, st.prompts⟩, some c)

/-- The overall exit status of a finished `fastq_to_fasta` run:
`sys.exit(c)` gives `c`, falling off the end gives 0. -/
def runExitCode : Option Nat → Nat
  | none => 0
  | some c => c

/-- The whole program (`src/fastq2fasta.py` lines 260-277):
`argument_check` followed, only on success, by `fastq_to_fasta`. -/
def mainRun (wOK : String → Bool) (ans : Nat → String) (fs : FS)
    (files : List String) : St × Nat :=
  match argument_check fs files with
  | .ok =>
    let r := runFiles wOK ans files ⟨fs, [], 0⟩
    (r.1, runExitCode r.2)
  | _ => (⟨fs, [], 0⟩, 1)

/-! ### Structure of `readLines` -/

theorem readLinesAux_ne_nil (cs : List Char) :
    ∀ (acc : List Char), ∀ p ∈ readLinesAux acc cs, p ≠ [] := by
  induction cs with
  | nil =>
    intro acc p hp
    by_cases h : acc.isEmpty
    · simp [readLinesAux, h] at hp
    · simp [readLinesAux, h] at hp
      subst hp
      simpa [List.isEmpty_iff] using h
  | cons c rest ih =>
    intro acc p hp
    by_cases h : c = '\n'
    · simp [readLinesAux, h] at hp
      rcases hp with hp | hp
      · subst hp; simp
      · exact ih [] p hp
    · simp [readLinesAux, h] at hp
      exact ih (c :: acc) p hp

theorem readLines_ne_nil (cs : List Char) : ∀ p ∈ readLines cs, p ≠ [] :=
  readLinesAux_ne_nil cs []

theorem isLine_iff (l : List Char) :
    isLine l = true ↔ ∃ body, l = body ++ ['\n'] ∧ '\n' ∉ body := by
  induction l with
  | nil =>
    simp [isLine]
  | cons c rest ih =>
    cases rest with
    | nil =>
      constructor
      · intro h
        have hc : c = '\n' := by simpa [isLine] using h
        exact ⟨[], by simp [hc], by simp⟩
      · rintro ⟨body, hb, -⟩
        cases body with
        | nil =>
          simp at hb
          simp [isLine, hb]
        | cons b bs =>
          simp at hb
      | cons c2 rest2 =>
      constructor
      · intro h
        simp only [isLine, Bool.and_eq_true, bne_iff_ne, ne_eq] at h
        obtain ⟨body, hb, hn⟩ := ih.mp h.2
        refine ⟨c :: body, by simp [hb], ?_⟩
        simp only [List.mem_cons, not_or]
        exact ⟨fun e => h.1 e.symm, hn⟩
      · rintro ⟨body, hb, hn⟩
        cases body with
        | nil => simp at hb
        | cons b bs =>
          simp only [List.cons_append, List.cons.injEq] at hb
          simp only [List.mem_cons, not_or] at hn
          simp only [isLine, Bool.and_eq_true, bne_iff_ne, ne_eq]
          exact ⟨by rw [hb.1]; exact fun e => hn.1 e.symm, ih.mpr ⟨bs, hb.2, hn.2⟩⟩

theorem readLinesAux_line (body : List Char) (hn : '\n' ∉ body) :
    ∀ (rest acc : List Char),
      readLinesAux acc (body ++ '\n' :: rest) =
        (acc.reverse ++ (body ++ ['\n'])) :: readLinesAux [] rest := by
  induction body with
  | nil => intro rest acc; simp [readLinesAux]
  | cons b bs ih =>
    intro rest acc
    simp only [List.mem_cons, not_or] at hn
    have hb : ¬(b = '\n') := fun e => hn.1 e.symm
    simp only [List.cons_append, readLinesAux, if_neg hb, List.append_eq]
    rw [ih hn.2 rest (b :: acc)]
    simp

theorem readLines_flatten_eq (pieces : List (List Char))
    (h : ∀ p ∈ pieces, isLine p = true) : readLines pieces.flatten = pieces := by
  induction pieces with
  | nil => simp [readLines, readLinesAux]
  | cons p ps ih =>
    obtain ⟨body, hb, hn⟩ := (isLine_iff p).mp (h p (by simp))
    have hfl : (p :: ps).flatten = body ++ '\n' :: ps.flatten := by
      simp [hb]
    rw [readLines, hfl, readLinesAux_line body hn]
    have := ih (fun q hq => h q (by simp [hq]))
    rw [readLines] at this
    simp [this, hb]

/-! ### Structure of the conversion -/

theorem convertFrom_mod (ls : List (List Char)) :
    ∀ n, convertFrom n ls = convertFrom (n % 4) ls := by
  induction ls with
  | nil => intro n; rfl
  | cons l t ih =>
    intro n
    have h1 : n % 4 % 4 = n % 4 := by omega
    have h2 : (n + 1) % 4 = (n % 4 + 1) % 4 := by omega
    simp only [convertFrom, h1]
    rw [ih (n + 1), ih (n % 4 + 1), h2]

theorem convertFrom_chunk (a b c d : List Char) (t : List (List Char)) :
    convertFrom 0 (a :: b :: c :: d :: t) =
      ('>' :: a.drop 1) :: b :: convertFrom 0 t := by
  simp only [convertFrom]
  norm_num
  rw [convertFrom_mod t 4]

theorem convertLines_length_eq :
    ∀ ls : List (List Char),
      (convertLines ls).length = 2 * (ls.length / 4) + min (ls.length % 4) 2
  | [] => by simp [convertLines, convertFrom]
  | [a] => by simp [convertLines, convertFrom]
  | [a, b] => by simp [convertLines, convertFrom]
  | [a, b, c] => by simp [convertLines, convertFrom]
  | a :: b :: c :: d :: t => by
    have ih := convertLines_length_eq t
    simp only [convertLines] at ih ⊢
    rw [convertFrom_chunk]
    simp only [List.length_cons]
    omega

theorem convertLines_records_getD (N : Nat) :
    ∀ lines : List (List Char), lines.length = 4 * N →
      ∀ i, i < N →
        (convertLines lines).getD (2 * i) [] =
          '>' :: (lines.getD (4 * i) []).drop 1 ∧
        (convertLines lines).getD (2 * i + 1) [] = lines.getD (4 * i + 1) [] := by
  induction N with
  | zero => intro lines _ i hi; omega
  | succ M ih =>
    intro lines hlen i hi
    rcases lines with _ | ⟨a, lines⟩
    · simp at hlen <;> omega
    rcases lines with _ | ⟨b, lines⟩
    · simp at hlen <;> omega
    rcases lines with _ | ⟨c, lines⟩
    · simp at hlen <;> omega
    rcases lines with _ | ⟨d, t⟩
    · simp at hlen <;> omega
    have ht : t.length = 4 * M := by
      simp only [List.length_cons] at hlen; omega
    simp only [convertLines, convertFrom_chunk]
    cases i with
    | zero =>
      simp [List.getD_cons_zero, List.getD_cons_succ]
    | succ j =>
      have e1 : (('>' :: a.drop 1) :: b :: convertFrom 0 t).getD (2 * (j + 1)) [] =
          (convertFrom 0 t).getD (2 * j) [] := by
        have h2 : 2 * (j + 1) = (2 * j).succ.succ := by omega
        rw [h2, List.getD_cons_succ, List.getD_cons_succ]
      have e2 : (('>' :: a.drop 1) :: b :: convertFrom 0 t).getD (2 * (j + 1) + 1) [] =
          (convertFrom 0 t).getD (2 * j + 1) [] := by
        have h2 : 2 * (j + 1) + 1 = (2 * j + 1).succ.succ := by omega
        rw [h2, List.getD_cons_succ, List.getD_cons_succ]
      have e3 : (a :: b :: c :: d :: t).getD (4 * (j + 1)) [] =
          t.getD (4 * j) [] := by
        have h4 : 4 * (j + 1) = (4 * j).succ.succ.succ.succ := by omega
        rw [h4, List.getD_cons_succ, List.getD_cons_succ, List.getD_cons_succ,
          List.getD_cons_succ]
      have e4 : (a :: b :: c :: d :: t).getD (4 * (j + 1) + 1) [] =
          t.getD (4 * j + 1) [] := by
        have h4 : 4 * (j + 1) + 1 = (4 * j + 1).succ.succ.succ.succ := by omega
        rw [h4, List.getD_cons_succ, List.getD_cons_succ, List.getD_cons_succ,
          List.getD_cons_succ]
      rw [e1, e2, e3, e4]
      have := ih t ht j (by omega)
      simpa [convertLines] using this

theorem convertLines_isLine (N : Nat) :
    ∀ lines : List (List Char), lines.length = 4 * N →
      (∀ l ∈ lines, isLine l = true) →
      (∀ i, i < N → startsWithChar '@' (lines.getD (4 * i) []) = true) →
      ∀ p ∈ convertLines lines, isLine p = true := by
  induction N with
  | zero =>
    intro lines hlen _ _ p hp
    rcases lines with _ | ⟨a, lines⟩
    · simp [convertLines, convertFrom] at hp
    · simp at hlen <;> omega
  | succ M ih =>
    intro lines hlen hterm hhdr p hp
    rcases lines with _ | ⟨a, lines⟩
    · simp at hlen <;> omega
    rcases lines with _ | ⟨b, lines⟩
    · simp at hlen <;> omega
    rcases lines with _ | ⟨c, lines⟩
    · simp at hlen <;> omega
    rcases lines with _ | ⟨d, t⟩
    · simp at hlen <;> omega
    have ht : t.length = 4 * M := by
      simp only [List.length_cons] at hlen; omega
    simp only [convertLines, convertFrom_chunk, List.mem_cons] at hp
    rcases hp with hp | hp | hp
    · -- the transformed header line
      have ha : isLine a = true := hterm a (by simp)
      have hstart : startsWithChar '@' a = true := by
        have := hhdr 0 (by omega)
        simpa using this
      obtain ⟨body, hb, hnb⟩ := (isLine_iff a).mp ha
      rcases body with _ | ⟨x, body'⟩
      · rw [hb] at hstart
        simp [startsWithChar] at hstart
      · have hx : x = '@' := by
          rw [hb] at hstart
          simpa [startsWithChar] using hstart
        have hdrop : a.drop 1 = body' ++ ['\n'] := by rw [hb]; simp
        rw [hp, hdrop]
        apply (isLine_iff _).mpr
        refine ⟨'>' :: body', by simp, ?_⟩
        simp only [List.mem_cons, not_or] at hnb ⊢
        exact ⟨by simp, hnb.2⟩
    · rw [hp]; exact hterm b (by simp)
    · apply ih t ht (fun l hl => hterm l (by simp [hl])) ?_ p hp
      intro i hilt
      have := hhdr (i + 1) (by omega)
      have h4 : 4 * (i + 1) = (4 * i).succ.succ.succ.succ := by omega
      rw [h4, List.getD_cons_succ, List.getD_cons_succ, List.getD_cons_succ,
        List.getD_cons_succ] at this
      exact this

theorem oddElems_cons_eq (a : List Char) (t : List (List Char)) :
    oddElems (a :: t) = evenElems t := by
  cases t <;> simp [oddElems, evenElems]

theorem convert_seq_sel (ls : List (List Char)) :
    ∀ n, (if n % 4 = 1 then evenElems (convertFrom n ls)
      else oddElems (convertFrom n ls)) = pos1Mod4From n ls := by
  induction ls with
  | nil =>
    intro n
    split <;> simp [convertFrom, pos1Mod4From, oddElems, evenElems]
  | cons l t ih =>
    intro n
    have h4 : n % 4 = 0 ∨ n % 4 = 1 ∨ n % 4 = 2 ∨ n % 4 = 3 := by omega
    rcases h4 with h | h | h | h
    · have h1 : (n + 1) % 4 = 1 := by omega
      have := ih (n + 1)
      rw [if_pos h1] at this
      simp only [convertFrom, pos1Mod4From, h]
      norm_num
      rw [oddElems_cons_eq]
      exact this
    · have h1 : (n + 1) % 4 = 2 := by omega
      have := ih (n + 1)
      rw [if_neg (by omega : ¬(n + 1) % 4 = 1)] at this
      simp only [convertFrom, pos1Mod4From, h]
      norm_num
      simp only [evenElems]
      rw [this]
    · have := ih (n + 1)
      rw [if_neg (by omega : ¬(n + 1) % 4 = 1)] at this
      simp only [convertFrom, pos1Mod4From, h]
      norm_num
      exact this
    · have := ih (n + 1)
      rw [if_neg (by omega : ¬(n + 1) % 4 = 1)] at this
      simp only [convertFrom, pos1Mod4From, h]
      norm_num
      exact this

/-! ### Suffixes and the output-name rule -/

theorem endsWithL_iff (sfx s : List Char) :
    endsWithL sfx s = true ↔ ∃ pre, s = pre ++ sfx := by
  unfold endsWithL
  rw [beq_iff_eq]
  constructor
  · intro h
    refine ⟨s.take (s.length - sfx.length), ?_⟩
    conv_lhs => rw [← List.take_append_drop (s.length - sfx.length) s]
    rw [h]
  · rintro ⟨pre, rfl⟩
    have hl : (pre ++ sfx).length - sfx.length = pre.length := by
      simp
    rw [hl, List.drop_left]

theorem endsWith_fasta_not_fastq (s : List Char)
    (h : endsWithL ".fasta".toList s = true) :
    endsWithL ".fastq".toList s = false := by
  rcases hq : endsWithL ".fastq".toList s with _ | _
  · rfl
  · exfalso
    obtain ⟨p1, hp1⟩ := (endsWithL_iff _ _).mp h
    obtain ⟨p2, hp2⟩ := (endsWithL_iff _ _).mp hq
    have he : p1 ++ ".fasta".toList = p2 ++ ".fastq".toList := by
      rw [← hp1, ← hp2]
    have hlen : (".fasta".toList).length = (".fastq".toList).length := by decide
    have := (List.append_inj' he hlen).2
    simp at this

theorem out_name_append_fastq (stem : String) :
    out_name (stem ++ ".fastq") = stem ++ ".fasta" := by
  unfold out_name
  have hd : (stem ++ ".fastq").toList = stem.toList ++ ".fastq".toList :=
    String.data_append stem ".fastq"
  rw [hd, if_pos ((endsWithL_iff _ _).mpr ⟨stem.toList, rfl⟩)]
  have h6 : (".fastq".toList).length = 6 := rfl
  have hl : (stem.toList ++ ".fastq".toList).length - 6 = stem.toList.length := by
    rw [List.length_append, h6]
    omega
  rw [hl, List.take_left]
  rfl

theorem out_name_id (f : String)
    (h : endsWithL ".fastq".toList f.toList = false) : out_name f = f := by
  have h' : ¬(endsWithL ".fastq".toList f.toList = true) := by rw [h]; simp
  unfold out_name
  rw [if_neg h']

theorem out_name_endsWith_fasta (f : String)
    (h : endsWithL ".fastq".toList f.toList = true) :
    endsWithL ".fasta".toList (out_name f).toList = true := by
  unfold out_name
  rw [if_pos h]
  exact (endsWithL_iff _ _).mpr ⟨_, rfl⟩

/-! ### Helper facts about `getD` -/

theorem getD_nil_of_le (l : List (List Char)) (i : Nat) (h : l.length ≤ i) :
    l.getD i [] = [] := by
  simp [List.getD_eq_getElem?_getD, List.getElem?_eq_none h]

theorem getD_mem_of_lt (l : List (List Char)) (i : Nat) (h : i < l.length) :
    l.getD i [] ∈ l := by
  rw [List.getD_eq_getElem l [] h]
  exact List.getElem_mem h

/-! ### The run model -/

theorem convertStep_inl_fs (wOK : String → Bool) (f out : String) (fs : FS)
    (fs' : FS) (evs : List Ev)
    (h : convertStep wOK f out fs = .inl (fs', evs)) :
    ∃ c, fs' = writeFS fs out c := by
  unfold convertStep at h
  split at h
  · split at h
    · simp at h
    · split at h
      · simp only [Sum.inl.injEq, Prod.mk.injEq] at h
        exact ⟨_, h.1.symm⟩
      · simp at h
  · simp at h

theorem runFiles_frame (wOK : String → Bool) (ans : Nat → String) :
    ∀ (files : List String) (st : St) (p : String),
      (∀ g ∈ files, out_name g ≠ p) →
      ((runFiles wOK ans files st).1).fs p = st.fs p := by
  intro files
  induction files with
  | nil => intro st p _; rfl
  | cons f rest ih =>
    intro st p h
    have hf : ¬(p = out_name f) := fun e => (h f (by simp)) e.symm
    have hrest : ∀ g ∈ rest, out_name g ≠ p := fun g hg => h g (by simp [hg])
    simp only [runFiles]
    rcases hout : st.fs (out_name f) with _ | v
    · simp only [hout]
      rcases hcs : convertStep wOK f (out_name f) st.fs with ⟨fs', evs⟩ | ⟨evs, c⟩
      · simp only [hcs]
        rw [ih _ p hrest]
        obtain ⟨cont, rfl⟩ := convertStep_inl_fs wOK f (out_name f) st.fs fs' evs hcs
        simp [writeFS, if_neg hf]
      · simp only [hcs]
    · simp only [hout]
      by_cases haff : affirmative (ans st.prompts) = true
      · simp only [haff, if_true]
        rcases hcs : convertStep wOK f (out_name f) st.fs with ⟨fs', evs⟩ | ⟨evs, c⟩
        · simp only [hcs]
          rw [ih _ p hrest]
          obtain ⟨cont, rfl⟩ := convertStep_inl_fs wOK f (out_name f) st.fs fs' evs hcs
          simp [writeFS, if_neg hf]
        · simp only [hcs]
      · simp [haff]

/-! ### `argument_check` -/

theorem argCheckGo_append (fs : FS) (f : String) (post : List String) (e : CheckErr)
    (hf : checkFile fs f = some e) :
    ∀ pre : List String, (∀ g ∈ pre, checkFile fs g = none) →
      argCheckGo fs (pre ++ f :: post) = ArgResult.failed e := by
  intro pre
  induction pre with
  | nil => intro _; simp [argCheckGo, hf]
  | cons g pre ih =>
    intro h
    have hg : checkFile fs g = none := h g (by simp)
    simp only [List.cons_append, argCheckGo, hg]
    exact ih (fun q hq => h q (by simp [hq]))

theorem checkFile_names (fs : FS) (f : String) (e : CheckErr)
    (hf : checkFile fs f = some e) : errFile e = f := by
  unfold checkFile at hf
  split at hf
  · simp only [Option.some.injEq] at hf; rw [← hf]; rfl
  · split at hf
    · simp only [Option.some.injEq] at hf; rw [← hf]; rfl
    · split at hf
      · simp only [Option.some.injEq] at hf; rw [← hf]; rfl
      · split at hf
        · simp only [Option.some.injEq] at hf; rw [← hf]; rfl
        · split at hf
          · simp only [Option.some.injEq] at hf; rw [← hf]; rfl
          · cases hf

theorem isEmpty_eq_false_of_ne {α : Type} (l : List α) (h : l ≠ []) :
    l.isEmpty = false := by
  cases l
  · exact absurd rfl h
  · rfl

/-! ### Claim theorems -/

/-- C1: for every well-formed FASTQ input of `N` complete 4-line
records (each line newline-terminated, each record header starting with
`@`), the file `fastq_to_fasta` writes reads back as exactly the chunks
it emitted, there are exactly `2 * N` of them, and for every `i < N`
output line `2i` is `>` followed by input line `4i` minus its first
character while output line `2i + 1` equals input line `4i + 1`
verbatim. -/
theorem fastqToFasta_wellformed (N : Nat) (lines : List (List Char))
    (hlen : lines.length = 4 * N)
    (hterm : ∀ l ∈ lines, isLine l = true)
    (hhdr : ∀ i, i < N → startsWithChar '@' (lines.getD (4 * i) []) = true) :
    readLines ((convertLines lines).flatten) = convertLines lines ∧
    (convertLines lines).length = 2 * N ∧
    ∀ i, i < N →
      (convertLines lines).getD (2 * i) [] =
        '>' :: (lines.getD (4 * i) []).drop 1 ∧
      (convertLines lines).getD (2 * i + 1) [] = lines.getD (4 * i + 1) [] := by
  refine ⟨readLines_flatten_eq _ (convertLines_isLine N lines hlen hterm hhdr), ?_,
    convertLines_records_getD N lines hlen⟩
  have h := convertLines_length_eq lines
  rw [hlen] at h
  have h4 : 4 * N / 4 = N := by omega
  have h0 : 4 * N % 4 = 0 := by omega
  rw [h4, h0] at h
  simpa using h

/-- Witness for C1 at the one-record file `@r\nACGT\n+\nFFFF\n`. -/
theorem fastqToFasta_wellformed_witness :
    (["@r\n".toList, "ACGT\n".toList, "+\n".toList, "FFFF\n".toList].length = 4 * 1) ∧
    (∀ l ∈ ["@r\n".toList, "ACGT\n".toList, "+\n".toList, "FFFF\n".toList],
      isLine l = true) ∧
    (∀ i, i < 1 → startsWithChar '@'
      (["@r\n".toList, "ACGT\n".toList, "+\n".toList, "FFFF\n".toList].getD (4 * i) [])
        = true) ∧
    (convertLines ["@r\n".toList, "ACGT\n".toList, "+\n".toList, "FFFF\n".toList]).length
      = 2 * 1 :=
  ⟨by decide, by decide, by decide,
    (fastqToFasta_wellformed 1 _ (by decide) (by decide) (by decide)).2.1⟩

/-- C2: byte-for-byte round-trip of sequence data — the concatenation
of the sequence lines of the output (the odd-position output lines)
equals the concatenation of the input lines at position ≡ 1 (mod 4),
for every input. -/
theorem seq_data_roundtrip (ls : List (List Char)) :
    (oddElems (convertLines ls)).flatten = (linesAtPos1Mod4 ls).flatten := by
  have h := convert_seq_sel ls 0
  rw [if_neg (by omega : ¬(0 % 4 = 1))] at h
  simp only [convertLines, linesAtPos1Mod4]
  rw [h]

/-- C4: the sniff `validate_fastq_format` returns invalid exactly when
fewer than four lines are available, or line 1 does not start with `@`,
or line 3 does not start with `+`; nothing else about the contents
(sequence or quality length, alphabet, encoding) enters the
condition. -/
theorem validate_fastq_format_characterization (content : List Char) :
    validate_fastq_format content = false ↔
      ((readLines content).length < 4 ∨
        startsWithChar '@' ((readLines content).getD 0 []) = false ∨
        startsWithChar '+' ((readLines content).getD 2 []) = false) := by
  rcases Nat.lt_or_ge (readLines content).length 4 with hlen | hlen
  · have h3 : (readLines content).getD 3 [] = [] :=
      getD_nil_of_le _ 3 (by omega)
    simp [validate_fastq_format, h3, hlen]
    intro _ _ _ h
    exact absurd (by simpa using h3) h
  · have e0 : ((readLines content).getD 0 []).isEmpty = false :=
      isEmpty_eq_false_of_ne _
        (readLines_ne_nil content _ (getD_mem_of_lt _ 0 (by omega)))
    have e1 : ((readLines content).getD 1 []).isEmpty = false :=
      isEmpty_eq_false_of_ne _
        (readLines_ne_nil content _ (getD_mem_of_lt _ 1 (by omega)))
    have e2 : ((readLines content).getD 2 []).isEmpty = false :=
      isEmpty_eq_false_of_ne _
        (readLines_ne_nil content _ (getD_mem_of_lt _ 2 (by omega)))
    have e3 : ((readLines content).getD 3 []).isEmpty = false :=
      isEmpty_eq_false_of_ne _
        (readLines_ne_nil content _ (getD_mem_of_lt _ 3 (by omega)))
    have hnl : ¬((readLines content).length < 4) := by omega
    simp only [validate_fastq_format, e0, e1, e2, e3, hnl, Bool.or_self,
      Bool.or_false, Bool.false_or, if_false, false_or]
    cases hb0 : startsWithChar '@' ((readLines content).getD 0 []) <;>
      cases hb2 : startsWithChar '+' ((readLines content).getD 2 []) <;>
        simp [hb0, hb2]

/-- C5: the output path is computed by the case-sensitive substitution
of a trailing `.fastq` by `.fasta`; for an accepted input whose name
does not end in the lowercase `.fastq` (for example a `.fq` input) the
substitution does not apply and the computed output name is the input
name itself, extension unchanged. -/
theorem out_name_substitution (f : String) :
    (∀ stem : String, f = stem ++ ".fastq" → out_name f = stem ++ ".fasta") ∧
    (validExt f = true → endsWithL ".fastq".toList f.toList = false →
      out_name f = f) := by
  constructor
  · rintro stem rfl
    exact out_name_append_fastq stem
  · intro _ h
    exact out_name_id f h

/-- Witness for C5 at the accepted, uppercase-extension name
`SAMPLE.FASTQ`: the case-sensitive substitution does not apply. -/
theorem out_name_substitution_witness :
    validExt "SAMPLE.FASTQ" = true ∧
    endsWithL ".fastq".toList "SAMPLE.FASTQ".toList = false ∧
    out_name "SAMPLE.FASTQ" = "SAMPLE.FASTQ" :=
  ⟨by decide, by decide,
    (out_name_substitution "SAMPLE.FASTQ").2 (by decide) (by decide)⟩

/-- C3: `argument_check` validates the paths in order with the checks
existence, readability, extension, size, FASTQ sniff (in that order per
file); the first failing check fails the whole run with a diagnostic
naming that file and the violated rule and a non-zero exit status, and
no later path is validated or converted: the result is the same for
every `post`, and the whole program leaves the file system untouched
and exits with status 1. -/
theorem argument_check_short_circuit (wOK : String → Bool) (ans : Nat → String)
    (fs : FS) (pre : List String) (f : String) (post : List String) (e : CheckErr)
    (hpre : ∀ g ∈ pre, checkFile fs g = none)
    (hf : checkFile fs f = some e) :
    argument_check fs (pre ++ f :: post) = ArgResult.failed e ∧
    errFile e = f ∧
    argExitCode (ArgResult.failed e) ≠ 0 ∧
    mainRun wOK ans fs (pre ++ f :: post) = (⟨fs, [], 0⟩, 1) ∧
    (fs f = none → e = CheckErr.notFound f) ∧
    (∀ info, fs f = some info → info.readable = false →
      e = CheckErr.notReadable f) ∧
    (∀ info, fs f = some info → info.readable = true → validExt f = false →
      e = CheckErr.badExt f) ∧
    (∀ info, fs f = some info → info.readable = true → validExt f = true →
      info.content.length = 0 → e = CheckErr.emptyFile f) ∧
    (∀ info, fs f = some info → info.readable = true → validExt f = true →
      info.content.length ≠ 0 → validate_fastq_format info.content = false →
      e = CheckErr.badFormat f) := by
  have hmain : argument_check fs (pre ++ f :: post) = ArgResult.failed e := by
    unfold argument_check
    rw [if_neg (by simp [List.isEmpty_iff] :
      ¬(pre ++ f :: post).isEmpty = true)]
    exact argCheckGo_append fs f post e hf pre hpre
  refine ⟨hmain, checkFile_names fs f e hf, by simp [argExitCode], ?_, ?_, ?_, ?_, ?_, ?_⟩
  · unfold mainRun
    rw [hmain]
  · intro hnone
    unfold checkFile at hf
    rw [hnone] at hf
    simp only [Option.some.injEq] at hf
    exact hf.symm
  · intro info hinfo hrd
    unfold checkFile at hf
    rw [hinfo] at hf
    simp [hrd] at hf
    exact hf.symm
  · intro info hinfo hrd hext
    unfold checkFile at hf
    rw [hinfo] at hf
    simp [hrd, hext] at hf
    exact hf.symm
  · intro info hinfo hrd hext hsize
    unfold checkFile at hf
    rw [hinfo] at hf
    simp [hrd, hext, hsize] at hf
    exact hf.symm
  · intro info hinfo hrd hext hsize hfmt
    unfold checkFile at hf
    rw [hinfo] at hf
    simp [hrd, hext, hsize, hfmt] at hf
    exact hf.symm

/-- Witness for C3: with an empty file system the first path fails the
existence check, and the second path is never examined. -/
theorem argument_check_short_circuit_witness :
    ((fun _ => none : FS) "missing.fastq" = none) ∧
    checkFile (fun _ => none) "missing.fastq" =
      some (CheckErr.notFound "missing.fastq") ∧
    argument_check (fun _ => none) ["missing.fastq", "b.fq"] =
      ArgResult.failed (CheckErr.notFound "missing.fastq") :=
  ⟨rfl, by decide,
    (argument_check_short_circuit (fun _ => true) (fun _ => "") (fun _ => none)
      [] "missing.fastq" ["b.fq"] (CheckErr.notFound "missing.fastq")
      (by simp) (by decide)).1⟩

/-- C6 (amended): in any run of `fastq_to_fasta`, an input file whose
name ends in the lowercase `.fastq` is only read, never written: its
file-system entry is unchanged by the whole run.  (An accepted input
not ending in `.fastq` coincides with its own computed output path and
can be overwritten.) -/
theorem fastq_suffix_input_unchanged (wOK : String → Bool) (ans : Nat → String)
    (files : List String) (st : St) (f : String)
    (hf : endsWithL ".fastq".toList f.toList = true) :
    ((runFiles wOK ans files st).1).fs f = st.fs f := by
  apply runFiles_frame
  intro g _
  by_cases hg : endsWithL ".fastq".toList g.toList = true
  · intro he
    have h2 := endsWith_fasta_not_fastq f.toList (he ▸ out_name_endsWith_fasta g hg)
    rw [hf] at h2
    cases h2
  · have hg' : endsWithL ".fastq".toList g.toList = false := by
      simpa using hg
    rw [out_name_id g hg']
    intro he
    rw [he, hf] at hg'
    cases hg'

/-- Witness for C6 at a single-file run on `a.fastq`. -/
theorem fastq_suffix_input_unchanged_witness :
    endsWithL ".fastq".toList "a.fastq".toList = true ∧
    ((runFiles (fun _ => true) (fun _ => "y") ["a.fastq"]
        ⟨fun p => if p = "a.fastq" then some ⟨true, "@r\nA\n+\n!\n".toList⟩ else none,
          [], 0⟩).1).fs "a.fastq" =
      (⟨fun p => if p = "a.fastq" then some ⟨true, "@r\nA\n+\n!\n".toList⟩ else none,
        [], 0⟩ : St).fs "a.fastq" :=
  ⟨by decide,
    fastq_suffix_input_unchanged (fun _ => true) (fun _ => "y") ["a.fastq"]
      ⟨fun p => if p = "a.fastq" then some ⟨true, "@r\nA\n+\n!\n".toList⟩ else none,
        [], 0⟩ "a.fastq" (by decide)⟩

/-- C6 counterexample: the accepted input `reads.fq` is its own
computed output path; with the operator confirming, the run truncates
it, so its file-system entry changes — the claim that every accepted
input is never written fails on the code. -/
theorem accepted_input_overwritten_cex :
    validExt "reads.fq" = true ∧
    (runFiles (fun _ => true) (fun _ => "y") ["reads.fq"]
        ⟨fun p => if p = "reads.fq" then some ⟨true, "@r\nAC\n+\n!!\n".toList⟩
          else none, [], 0⟩).1.fs "reads.fq" ≠
      (fun p => if p = "reads.fq" then some ⟨true, "@r\nAC\n+\n!!\n".toList⟩
        else none : FS) "reads.fq" := by
  exact ⟨by decide, by decide⟩

/-- C7: an accepted input that does not end in the lowercase `.fastq`
(for example a `.fq` input) is its own computed output path, so the
overwrite prompt fires because the destination exists; if the operator
confirms, the `open(out_file, 'w')` truncation empties the file before
the read loop consumes any line, the conversion writes an empty output,
and the original input contents are lost. -/
theorem self_overwrite_truncates (wOK : String → Bool) (ans : Nat → String)
    (f : String) (fs : FS) (info : FileData)
    (hacc : validExt f = true)
    (hnq : endsWithL ".fastq".toList f.toList = false)
    (hfs : fs f = some info)
    (hrd : info.readable = true)
    (hw : wOK (out_dir_of f) = true)
    (hy : affirmative (ans 0) = true)
    (hne : info.content ≠ []) :
    runFiles wOK ans [f] ⟨fs, [], 0⟩ =
      (⟨writeFS fs f [], [Ev.prompt f, Ev.okMsg f f], 1⟩, none) ∧
    writeFS fs f [] f = some ⟨true, []⟩ ∧
    writeFS fs f [] f ≠ fs f := by
  have hout : out_name f = f := out_name_id f hnq
  refine ⟨?_, by simp [writeFS], ?_⟩
  · simp [runFiles, convertStep, hout, hfs, hrd, hw, hy, convertLines,
      convertFrom, writeFS]
  · have hw' : writeFS fs f [] f = some ⟨true, []⟩ := by simp [writeFS]
    rw [hw', hfs]
    intro hcon
    apply hne
    injection hcon with h1
    rw [← h1]

/-- Witness for C7 at `x.fq` with answer `y`. -/
theorem self_overwrite_truncates_witness :
    validExt "x.fq" = true ∧
    endsWithL ".fastq".toList "x.fq".toList = false ∧
    ((fun p => if p = "x.fq" then some ⟨true, "@r\nAC\n+\n!!\n".toList⟩ else none : FS)
      "x.fq" = some ⟨true, "@r\nAC\n+\n!!\n".toList⟩) ∧
    affirmative ((fun _ => "y") 0) = true ∧
    writeFS (fun p => if p = "x.fq" then some ⟨true, "@r\nAC\n+\n!!\n".toList⟩ else none)
      "x.fq" [] "x.fq" = some ⟨true, []⟩ :=
  ⟨by decide, by decide, by decide, by decide,
    (self_overwrite_truncates (fun _ => true) (fun _ => "y") "x.fq"
      (fun p => if p = "x.fq" then some ⟨true, "@r\nAC\n+\n!!\n".toList⟩ else none)
      ⟨true, "@r\nAC\n+\n!!\n".toList⟩ (by decide) (by decide) (by decide) rfl rfl
      (by decide) (by decide)).2.1⟩

/-- C8 (amended): when the computed output path does not already exist
and the destination directory is not writable, the run fails
immediately with exit status 1 and a diagnostic naming the directory,
without issuing any prompt (the prompt counter and the file system are
unchanged).  When the output path does exist, the overwrite prompt is
issued before the writability check. -/
theorem unwritable_dir_fails_without_prompt (wOK : String → Bool)
    (ans : Nat → String) (f : String) (rest : List String) (st : St)
    (hno : st.fs (out_name f) = none)
    (hw : wOK (out_dir_of (out_name f)) = false) :
    runFiles wOK ans (f :: rest) st =
      (⟨st.fs, st.events ++ [Ev.permErr (out_dir_of (out_name f))], st.prompts⟩,
        some 1) := by
  simp [runFiles, convertStep, hno, hw]

/-- Witness for C8 (amended) at `d/x.fastq` with every directory
unwritable. -/
theorem unwritable_dir_fails_without_prompt_witness :
    ((⟨fun p => if p = "d/x.fastq" then some ⟨true, "@r\nA\n+\n!\n".toList⟩ else none,
        [], 0⟩ : St).fs (out_name "d/x.fastq") = none) ∧
    ((fun _ => false : String → Bool) (out_dir_of (out_name "d/x.fastq")) = false) ∧
    runFiles (fun _ => false) (fun _ => "y") ["d/x.fastq"]
        ⟨fun p => if p = "d/x.fastq" then some ⟨true, "@r\nA\n+\n!\n".toList⟩ else none,
          [], 0⟩ =
      (⟨fun p => if p = "d/x.fastq" then some ⟨true, "@r\nA\n+\n!\n".toList⟩ else none,
        [] ++ [Ev.permErr (out_dir_of (out_name "d/x.fastq"))], 0⟩, some 1) :=
  ⟨by decide, rfl,
    unwritable_dir_fails_without_prompt (fun _ => false) (fun _ => "y") "d/x.fastq" []
      ⟨fun p => if p = "d/x.fastq" then some ⟨true, "@r\nA\n+\n!\n".toList⟩ else none,
        [], 0⟩ (by decide) rfl⟩

/-- C8 counterexample: with an existing output file and an unwritable
destination directory, the run issues the overwrite prompt first and
only then fails with the permission diagnostic — so the claim that no
overwrite-confirmation prompt is issued before that failure is false on
the code. -/
theorem prompt_before_permission_failure_cex :
    (runFiles (fun _ => false) (fun _ => "y") ["in.fastq"]
        ⟨fun p => if p = "in.fastq" then some ⟨true, "@r\nAC\n+\n!!\n".toList⟩
          else if p = "in.fasta" then some ⟨true, "old\n".toList⟩ else none,
          [], 0⟩).1.events =
      [Ev.prompt "in.fasta", Ev.permErr "."] ∧
    (runFiles (fun _ => false) (fun _ => "y") ["in.fastq"]
        ⟨fun p => if p = "in.fastq" then some ⟨true, "@r\nAC\n+\n!!\n".toList⟩
          else if p = "in.fasta" then some ⟨true, "old\n".toList⟩ else none,
          [], 0⟩).2 = some 1 := by
  exact ⟨by decide, by decide⟩

/-- C9: when the output path already exists, a non-affirmative answer
(anything whose lowering is not `y`/`yes`, including the empty string)
terminates the run immediately with exit status 0, with the file system
untouched (no output bytes written) and later files unprocessed; an
affirmative case-insensitive `y`/`yes` answer lets the converter
proceed and overwrite the existing file with the converted output. -/
theorem overwrite_guard_decline_accept (wOK : String → Bool) (ans : Nat → String)
    (f : String) (st : St)
    (hex : (st.fs (out_name f)).isSome = true) :
    (affirmative (ans st.prompts) = false →
      ∀ rest, runFiles wOK ans (f :: rest) st =
        (⟨st.fs, st.events ++ [Ev.prompt (out_name f), Ev.cancelMsg],
          st.prompts + 1⟩, some 0)) ∧
    (affirmative (ans st.prompts) = true →
      ∀ info, st.fs f = some info → info.readable = true →
        wOK (out_dir_of (out_name f)) = true →
        (runFiles wOK ans [f] st).2 = none ∧
        (runFiles wOK ans [f] st).1.fs (out_name f) =
          some ⟨true, (convertLines (if out_name f = f then []
            else readLines info.content)).flatten⟩) := by
  obtain ⟨v, hv⟩ := Option.isSome_iff_exists.mp hex
  constructor
  · intro hn rest
    simp [runFiles, hv, hn]
  · intro hy info hinfo hrd hw
    constructor
    · simp [runFiles, hv, hy, convertStep, hinfo, hrd, hw]
    · simp [runFiles, hv, hy, convertStep, hinfo, hrd, hw, writeFS]

/-- Witness for C9: with an existing `a.fasta` and an empty answer the
run stops with status 0, leaving the file system untouched. -/
theorem overwrite_guard_decline_accept_witness :
    ((⟨fun p => if p = "a.fasta" then some ⟨true, "x\n".toList⟩
        else if p = "a.fastq" then some ⟨true, "@r\nA\n+\n!\n".toList⟩ else none,
      [], 0⟩ : St).fs (out_name "a.fastq")).isSome = true ∧
    affirmative ((fun _ => "") 0) = false ∧
    runFiles (fun _ => true) (fun _ => "") ["a.fastq"]
        ⟨fun p => if p = "a.fasta" then some ⟨true, "x\n".toList⟩
          else if p = "a.fastq" then some ⟨true, "@r\nA\n+\n!\n".toList⟩ else none,
          [], 0⟩ =
      (⟨fun p => if p = "a.fasta" then some ⟨true, "x\n".toList⟩
          else if p = "a.fastq" then some ⟨true, "@r\nA\n+\n!\n".toList⟩ else none,
        [] ++ [Ev.prompt (out_name "a.fastq"), Ev.cancelMsg], 0 + 1⟩, some 0) :=
  ⟨by decide, by decide,
    (overwrite_guard_decline_accept (fun _ => true) (fun _ => "") "a.fastq"
      ⟨fun p => if p = "a.fasta" then some ⟨true, "x\n".toList⟩
        else if p = "a.fastq" then some ⟨true, "@r\nA\n+\n!\n".toList⟩ else none,
        [], 0⟩ (by decide)).1 (by decide) []⟩

/-- C10: a validated file whose line count is not a multiple of 4 is
still converted: every header and sequence line of the partial trailing
frame is emitted (the output has `2 * (n / 4) + min (n % 4) 2` chunks),
the run prints the non-fatal warning naming the file and the observed
line count followed by the success message, and the exit status is
0. -/
theorem incomplete_trailing_record_warning (wOK : String → Bool)
    (ans : Nat → String) (f : String) (st : St) (info : FileData)
    (hnex : st.fs (out_name f) = none)
    (hfs : st.fs f = some info)
    (hrd : info.readable = true)
    (hw : wOK (out_dir_of (out_name f)) = true)
    (hpart : (readLines info.content).length % 4 ≠ 0) :
    runFiles wOK ans [f] st =
      (⟨writeFS st.fs (out_name f) ((convertLines (readLines info.content)).flatten),
        st.events ++ [Ev.warnIncomplete f (readLines info.content).length,
          Ev.okMsg f (out_name f)], st.prompts⟩, none) ∧
    runExitCode (runFiles wOK ans [f] st).2 = 0 ∧
    (convertLines (readLines info.content)).length =
      2 * ((readLines info.content).length / 4) +
        min ((readLines info.content).length % 4) 2 := by
  have hne : ¬(out_name f = f) := by
    intro h
    rw [h, hfs] at hnex
    cases hnex
  have hrun : runFiles wOK ans [f] st =
      (⟨writeFS st.fs (out_name f) ((convertLines (readLines info.content)).flatten),
        st.events ++ [Ev.warnIncomplete f (readLines info.content).length,
          Ev.okMsg f (out_name f)], st.prompts⟩, none) := by
    simp [runFiles, convertStep, hnex, hfs, hrd, hw, hne, hpart]
  exact ⟨hrun, by rw [hrun]; rfl, convertLines_length_eq _⟩

/-- Witness for C10 at a five-line input (one full record plus a stray
header). -/
theorem incomplete_trailing_record_warning_witness :
    ((⟨fun p => if p = "in.fastq" then some ⟨true, "@a\nAC\n+\n!!\n@b\n".toList⟩
        else none, [], 0⟩ : St).fs (out_name "in.fastq") = none) ∧
    ((⟨fun p => if p = "in.fastq" then some ⟨true, "@a\nAC\n+\n!!\n@b\n".toList⟩
        else none, [], 0⟩ : St).fs "in.fastq" =
      some ⟨true, "@a\nAC\n+\n!!\n@b\n".toList⟩) ∧
    ((readLines "@a\nAC\n+\n!!\n@b\n".toList).length % 4 ≠ 0) ∧
    runExitCode ((runFiles (fun _ => true) (fun _ => "")
      ["in.fastq"]
      ⟨fun p => if p = "in.fastq" then some ⟨true, "@a\nAC\n+\n!!\n@b\n".toList⟩
        else none, [], 0⟩).2) = 0 ∧
    (convertLines (readLines "@a\nAC\n+\n!!\n@b\n".toList)).length =
      2 * ((readLines "@a\nAC\n+\n!!\n@b\n".toList).length / 4) +
        min ((readLines "@a\nAC\n+\n!!\n@b\n".toList).length % 4) 2 :=
  ⟨by decide, by decide, by decide,
    (incomplete_trailing_record_warning (fun _ => true) (fun _ => "") "in.fastq"
      ⟨fun p => if p = "in.fastq" then some ⟨true, "@a\nAC\n+\n!!\n@b\n".toList⟩
        else none, [], 0⟩
      ⟨true, "@a\nAC\n+\n!!\n@b\n".toList⟩
      (by decide) (by decide) rfl rfl (by decide)).2.1,
    (incomplete_trailing_record_warning (fun _ => true) (fun _ => "") "in.fastq"
      ⟨fun p => if p = "in.fastq" then some ⟨true, "@a\nAC\n+\n!!\n@b\n".toList⟩
        else none, [], 0⟩
      ⟨true, "@a\nAC\n+\n!!\n@b\n".toList⟩
      (by decide) (by decide) rfl rfl (by decide)).2.2⟩
